import Mathlib

/-!
Verification of the Ace editor ↔ ProseMirror synchronization layer
(`src/gwt/panmirror/src/editor/src/optional/ace/ace.ts`).

Strings are modelled as `List Char` (one element per UTF-16 code unit of the
JavaScript string); `charCodeAt` at an out-of-range index returns `NaN`, and
`NaN === x` is false for every `x`, which is modelled by comparing the
optional lookups `l[i]?` (never `none = none` at the places where it matters,
because one side is always in range there).
-/

set_option maxHeartbeats 1000000

/-- The `{from, to, text}` change object returned by `computeChange`:
replace the half-open range `[from, to)` of the old string with `text`. -/
structure Change where
  «from» : Nat
  «to» : Nat
  text : List Char
deriving DecidableEq

/-- JavaScript `String.prototype.slice(i, j)` for natural indices:
the characters at positions `i ≤ k < j`, clamped to the string. -/
def jsSlice (s : List Char) (i j : Nat) : List Char :=
  (s.drop i).take (j - i)

/-- The forward scan of `computeChange`
(`while (start < oldEnd && oldVal.charCodeAt(start) === newVal.charCodeAt(start)) ++start`,
with `oldEnd = oldVal.length` while this loop runs).  `rem` is the loop
variant `oldEnd - start`, so the guard `start < oldEnd` is `rem > 0`. -/
def scanFwdAux (oldVal newVal : List Char) : Nat → Nat → Nat
  | start, 0 => start
  | start, rem + 1 =>
    if oldVal[start]? = newVal[start]? then scanFwdAux oldVal newVal (start + 1) rem
    else start

/-- The backward scan of `computeChange`
(`while (oldEnd > start && newEnd > start && oldVal.charCodeAt(oldEnd-1) === newVal.charCodeAt(newEnd-1)) { oldEnd--; newEnd--; }`),
returning the final `(oldEnd, newEnd)`. -/
def scanBwdAux (oldVal newVal : List Char) (start : Nat) : Nat → Nat → Nat × Nat
  | oldEnd + 1, newEnd + 1 =>
    if start < oldEnd + 1 ∧ start < newEnd + 1 ∧ oldVal[oldEnd]? = newVal[newEnd]? then
      scanBwdAux oldVal newVal start oldEnd newEnd
    else (oldEnd + 1, newEnd + 1)
  | oldEnd, newEnd => (oldEnd, newEnd)

/-- `computeChange(oldVal, newVal)` from ace.ts: `null` when the strings are
identical, otherwise the common-prefix/common-suffix trimmed replacement. -/
def computeChange (oldVal newVal : List Char) : Option Change :=
  if oldVal = newVal then none
  else
    let start := scanFwdAux oldVal newVal 0 oldVal.length
    let ends := scanBwdAux oldVal newVal start oldVal.length newVal.length
    some ⟨start, ends.1, jsSlice newVal start ends.2⟩

/-- Applying a change to a string: replace the half-open range `[from, to)`
with `text` (the patch operator the spec's contract is stated with). -/
def applyChange (s : List Char) (c : Change) : List Char :=
  s.take c.«from» ++ c.text ++ s.drop c.«to»

/-- A row/column position as used by the Ace edit session (0-indexed). -/
structure AcePos where
  row : Nat
  column : Nat
deriving DecidableEq

/-- Modelled from the spec: the inner editor's line structure — "a simple
line-splitting convention (newline-delimited rows, 0-indexed rows/columns)".
The Ace `Document` itself is an external collaborator (not under `src/`);
its buffer is the newline-split list of lines, never empty. -/
def linesOf : List Char → List (List Char)
  | [] => [[]]
  | c :: cs =>
    if c = '\n' then [] :: linesOf cs
    else
      match linesOf cs with
      | [] => [[c]]
      | l :: ls => (c :: l) :: ls

/-- Modelled from the spec: Ace `Document.indexToPosition` — walk the rows,
subtracting `line length + 1` (the newline) until the index falls inside a
row; on the last row the remaining index becomes the column unconditionally.
`row` is the row counter of the walk. -/
def i2pGo : List (List Char) → Nat → Nat → AcePos
  | [], idx, row => ⟨row, idx⟩
  | [_], idx, row => ⟨row, idx⟩
  | l :: l' :: ls, idx, row =>
    if idx ≤ l.length then ⟨row, idx⟩
    else i2pGo (l' :: ls) (idx - (l.length + 1)) (row + 1)

/-- Modelled from the spec: Ace `Document.indexToPosition` on a node's text
(absolute offset within the buffer → row/column). -/
def indexToPosition (text : List Char) (index : Nat) : AcePos :=
  i2pGo (linesOf text) index 0

/-- Modelled from the spec: Ace `Document.positionToIndex` — sum
`line length + 1` over the rows before `pos.row` (clamped to the row count)
and add the column. -/
def positionToIndex (text : List Char) (pos : AcePos) : Nat :=
  (((linesOf text).take (min pos.row (linesOf text).length)).map
    (fun l => l.length + 1)).sum + pos.column

/-- A ProseMirror node as seen by the binding: the node type (compared by
identity in `update`, modelled by a numeric id), the truthiness of
`type.spec.selectable`, `textContent`, `nodeSize` and `childCount`. -/
structure PMNode where
  typeId : Nat
  selectable : Bool
  textContent : List Char
  nodeSize : Nat
  childCount : Nat
deriving DecidableEq

/-- The per-node-type `CodeViewOptions` fields the modelled methods read:
the language classifier `lang(node, contents)` (`null` = `none`) and whether
an `executeRmdChunkFn` callback is configured (its truthiness). -/
structure CodeViewOptions where
  lang : PMNode → List Char → Option (List Char)
  executeRmdChunkFn : Bool

/-- The `EditorOptions` field the modelled methods read: the configured
executable-language list `rmdChunkExecution` (`none` = absent/falsy). -/
structure EditorOptions where
  rmdChunkExecution : Option (List (List Char))

/-- The host-document context the binding queries: `getPos()`, the
`$pos.nodeBefore` of `resolve(getPos())`, and `doc.nodeAt`. -/
structure HostCtx where
  getPos : Nat
  nodeBefore : Option PMNode
  nodeAt : Nat → Option PMNode

/-- Externally visible actions performed by the binding, in order.  The
`guard` argument of the two inner-editor mutations records the value of the
`updating` flag at the instant the mutation runs. -/
inductive Ev where
  | setMode (lang : List Char)
  | enableChunkExec (enabled : Bool)
  | replaceInner (guard : Bool) (rangeStart rangeEnd : AcePos) (text : List Char)
  | setInnerSel (guard : Bool) (rangeStart rangeEnd : AcePos)
  | focusInner
  | focusHost
  | execInner (cmd : String)
  | hostReplace (rFrom rTo : Nat) (text : List Char)
  | dispatchNodeSel (pos : Nat)
  | dispatchNearSel (pos : Nat) (bias : Int)
  | hostDeleteAndSelNear (dFrom dTo : Nat) (selPos : Nat) (bias : Int)
  | undoInputRuleEv
deriving DecidableEq

/-- The mutable state of one `CodeBlockNodeView` binding: the held node,
the inner edit session's buffer and selection, the cursor, the `updating`
and `escaping` flags, the cached `mode` string, the visibility of the run
toolbar, and whether the host view (rather than the inner editor) holds
focus. -/
structure BState where
  node : PMNode
  innerText : List Char
  selRange : AcePos × AcePos
  cursor : AcePos
  selEmpty : Bool
  updating : Bool
  escaping : Bool
  mode : List Char
  chunkExecEnabled : Bool
  hostFocused : Bool
deriving DecidableEq

/-- Modelled from the spec: Ace `EditSession.replace(range, text)` — the
inner document replaces the row/column range with `text`; at the index
level this splices at `positionToIndex` of the endpoints (the Ace document
is an external collaborator, specified in §6 as "incremental range
replace"). -/
def sessionReplace (text : List Char) (p1 p2 : AcePos) (repl : List Char) : List Char :=
  text.take (positionToIndex text p1) ++ repl ++ text.drop (positionToIndex text p2)

/-- `CodeBlockNodeView.updateMode` from ace.ts: derive `lang` from the
classifier; set the session mode when it is non-null and differs from the
cached mode; enable chunk execution iff `lang` is truthy,
`canExecuteChunks()` holds, and `!!find(...)` — an entry of
`rmdChunkExecution` matches `lang` under `localeCompare(·, undefined,
{sensitivity: 'accent'})`, modelled by the relation `localeEq`. -/
def CodeBlockNodeView.updateMode (localeEq : List Char → List Char → Bool)
    (opts : CodeViewOptions) (editorOptions : EditorOptions) (st : BState) :
    BState × List Ev :=
  let lang := opts.lang st.node st.innerText
  let modePart : BState × List Ev :=
    match lang with
    | some l => if st.mode ≠ l then ({ st with mode := l }, [Ev.setMode l]) else (st, [])
    | none => (st, [])
  let canExec := editorOptions.rmdChunkExecution.isSome && opts.executeRmdChunkFn
  let enabled : Bool :=
    match lang with
    | some l =>
      if l ≠ [] ∧ canExec = true then
        match (match editorOptions.rmdChunkExecution with
               | some xs => xs
               | none => []).find? (fun e => localeEq l e) with
        | some e => decide (e ≠ [])
        | none => false
      else false
    | none => false
  ({ modePart.1 with chunkExecEnabled := enabled },
   modePart.2 ++ [Ev.enableChunkExec enabled])

/-- `CodeBlockNodeView.update` from ace.ts: reject a node of a different
type; otherwise store the node, run `updateMode`, diff the session value
against the new `textContent` and, if non-null, apply it to the session
under the `updating` guard. -/
def CodeBlockNodeView.update (localeEq : List Char → List Char → Bool)
    (opts : CodeViewOptions) (editorOptions : EditorOptions)
    (st : BState) (node : PMNode) : Bool × BState × List Ev :=
  if node.typeId ≠ st.node.typeId then (false, st, [])
  else
    let st1 := { st with node := node }
    let m := CodeBlockNodeView.updateMode localeEq opts editorOptions st1
    match computeChange m.1.innerText node.textContent with
    | none => (true, m.1, m.2)
    | some change =>
      let st3 := { m.1 with updating := true }
      let p1 := indexToPosition st3.innerText change.«from»
      let p2 := indexToPosition st3.innerText change.«to»
      let st4 := { st3 with innerText := sessionReplace st3.innerText p1 p2 change.text }
      let st5 := { st4 with updating := false }
      (true, st5, m.2 ++ [Ev.replaceInner st3.updating p1 p2 change.text])

/-- `CodeBlockNodeView.setSelection` from ace.ts: focus the inner editor
unless escaping, then set the session's selection range (anchor/head given
as node-local offsets, converted via `indexToPosition`) under the
`updating` guard. -/
def CodeBlockNodeView.setSelection (st : BState) (anchor head : Nat) : BState × List Ev :=
  let focusPart : BState × List Ev :=
    if st.escaping then (st, []) else ({ st with hostFocused := false }, [Ev.focusInner])
  let st1 := { focusPart.1 with updating := true }
  let p1 := indexToPosition st1.innerText anchor
  let p2 := indexToPosition st1.innerText head
  let st2 := { st1 with selRange := (p1, p2) }
  let st3 := { st2 with updating := false }
  (st3, focusPart.2 ++ [Ev.setInnerSel st1.updating p1 p2])

/-- `CodeBlockNodeView.asProseMirrorSelection` from ace.ts: the inner
selection range mapped to host absolute offsets —
`positionToIndex(range.start) + getPos() + 1` (and likewise the end). -/
def CodeBlockNodeView.asProseMirrorSelection (host : HostCtx) (st : BState) : Nat × Nat :=
  let offset := host.getPos + 1
  (positionToIndex st.innerText st.selRange.1 + offset,
   positionToIndex st.innerText st.selRange.2 + offset)

/-- `CodeBlockNodeView.valueChanged` from ace.ts: diff the held node's
`textContent` against the session contents; if non-null, dispatch a host
transaction replacing `[start + from, start + to)` (with
`start = getPos() + 1`) by the change text; then run `updateMode`. -/
def CodeBlockNodeView.valueChanged (localeEq : List Char → List Char → Bool)
    (opts : CodeViewOptions) (editorOptions : EditorOptions)
    (host : HostCtx) (st : BState) : BState × List Ev :=
  let txPart : List Ev :=
    match computeChange st.node.textContent st.innerText with
    | some change =>
      [Ev.hostReplace (host.getPos + 1 + change.«from») (host.getPos + 1 + change.«to»)
        change.text]
    | none => []
  let m := CodeBlockNodeView.updateMode localeEq opts editorOptions st
  (m.1, txPart ++ m.2)

/-- `CodeBlockNodeView.backspaceMaybeDeleteNode` from ace.ts: on an empty
node, either undo a pending input rule, or delete the whole node
(`[getPos(), getPos() + nodeSize)`) and place the host selection with
`TextSelection.near(resolve(getPos()), -1)`; otherwise forward the
backspace command to the inner editor.  `undoPending` is the result of the
dry-run `undoInputRule(view.state)` probe. -/
def CodeBlockNodeView.backspaceMaybeDeleteNode (host : HostCtx) (undoPending : Bool)
    (st : BState) : BState × List Ev :=
  if st.node.childCount = 0 then
    if undoPending then
      ({ st with hostFocused := true }, [Ev.undoInputRuleEv, Ev.focusHost])
    else
      ({ st with hostFocused := true },
       [Ev.hostDeleteAndSelNear host.getPos (host.getPos + st.node.nodeSize) host.getPos (-1),
        Ev.focusHost])
  else
    (st, [Ev.execInner "backspace"])

/-- `CodeBlockNodeView.arrowMaybeEscape` from ace.ts: forward the Ace
command when the movement stays inside the editor; otherwise set
`escaping`, focus the host view, resolve a node/near selection adjacent to
the node, dispatch it when found, refocus the host and clear `escaping`. -/
def CodeBlockNodeView.arrowMaybeEscape (host : HostCtx) (st : BState)
    (unit : String) (dir : Int) (command : String) : BState × List Ev :=
  let pos := st.cursor
  let lastrow := (linesOf st.innerText).length - 1
  if st.selEmpty = false ∨ pos.row ≠ (if dir < 0 then 0 else lastrow) ∨
      (unit = "char" ∧
        pos.column ≠ (if dir < 0 then 0 else ((linesOf st.innerText).getD pos.row []).length)) then
    (st, [Ev.execInner command])
  else
    let st1 := { st with escaping := true, hostFocused := true }
    let prevSelectable : Bool :=
      match host.nodeBefore with
      | some nb => nb.selectable
      | none => false
    let nextSelectable : Bool :=
      match host.nodeAt (host.getPos + st.node.nodeSize) with
      | some nn => nn.selectable
      | none => false
    let selection : Option Ev :=
      if dir < 0 ∧ prevSelectable = true then
        some (Ev.dispatchNodeSel (host.getPos -
          (match host.nodeBefore with | some nb => nb.nodeSize | none => 0)))
      else if dir ≥ 0 ∧ nextSelectable = true then
        some (Ev.dispatchNodeSel (host.getPos + st.node.nodeSize))
      else
        match host.nodeAt (host.getPos + (if dir < 0 then 0 else st.node.nodeSize)) with
        | some _ =>
          some (Ev.dispatchNearSel (host.getPos + (if dir < 0 then 0 else st.node.nodeSize)) dir)
        | none => none
    let dispatchPart : List Ev :=
      match selection with
      | some s => [s]
      | none => []
    let st2 := { st1 with escaping := false, hostFocused := true }
    (st2, [Ev.focusHost] ++ dispatchPart ++ [Ev.focusHost])

/-- A concrete locale comparison for witnesses: plain string equality (a
sound instance of `localeCompare(·, undefined, {sensitivity: 'accent'})
=== 0` on the strings the witnesses use). -/
def locEqDef : List Char → List Char → Bool := fun a b => a == b

/-- A concrete options bundle: the classifier returns the node's text
content as the language; an execution callback is configured. -/
def optsDef : CodeViewOptions := ⟨fun node _ => some node.textContent, true⟩

/-- A concrete editor-options bundle: `rmdChunkExecution = ["r", "python"]`. -/
def edOptsDef : EditorOptions := ⟨some ["r".toList, "python".toList]⟩

/-- A concrete binding state used by witnesses. -/
def bstate0 : BState :=
  ⟨⟨0, false, "abc".toList, 5, 1⟩, "abc".toList, (⟨0, 0⟩, ⟨0, 0⟩), ⟨0, 0⟩,
   true, false, false, [], false, false⟩

/-- Does an event record a session-mode change? -/
def isSetModeEv : Ev → Bool
  | Ev.setMode _ => true
  | _ => false

/-- A binding state whose detected language is the empty string (the node
text is empty and the classifier returns the text content). -/
def bstateEmptyLang : BState :=
  ⟨⟨0, false, [], 2, 0⟩, [], (⟨0, 0⟩, ⟨0, 0⟩), ⟨0, 0⟩, true, false, false,
   "x".toList, false, false⟩

/-- A binding state whose node language attribute changed to `"python"`
while the stored mode is still `"r"`. -/
def bstatePy : BState :=
  ⟨⟨0, false, "python".toList, 8, 1⟩, "python".toList, (⟨0, 0⟩, ⟨0, 0⟩), ⟨0, 0⟩,
   true, false, false, "r".toList, false, false⟩

/-- A host context used by witnesses: node position 5, no neighbours. -/
def host0 : HostCtx := ⟨5, none, fun _ => none⟩

/-- A binding state matching the spec's example: cursor at row 0, column 3
on a single line of length 10, empty selection. -/
def bstateRow0Col3 : BState :=
  ⟨⟨0, false, "abcdefghij".toList, 12, 1⟩, "abcdefghij".toList, (⟨0, 0⟩, ⟨0, 0⟩),
   ⟨0, 3⟩, true, false, false, [], false, false⟩

/-- Truthiness of `$pos.nodeBefore && $pos.nodeBefore.type.spec.selectable`. -/
def prevSelectableB (host : HostCtx) : Bool :=
  match host.nodeBefore with
  | some nb => nb.selectable
  | none => false

/-- Truthiness of `nextNode?.type.spec.selectable`. -/
def nextSelectableB (host : HostCtx) (st : BState) : Bool :=
  match host.nodeAt (host.getPos + st.node.nodeSize) with
  | some nn => nn.selectable
  | none => false

/-- A host context with a selectable preceding node of size 3 at node
position 5. -/
def hostPrev : HostCtx := ⟨5, some ⟨1, true, [], 3, 0⟩, fun _ => none⟩

/-- A binding state whose inner buffer (`"abXc"`) is ahead of the held
node's text (`"abc"`), with the inner selection spanning local offsets
1–2. -/
def bstateC8 : BState :=
  ⟨⟨0, false, "abc".toList, 5, 1⟩, "abXc".toList,
   (indexToPosition "abXc".toList 1, indexToPosition "abXc".toList 2), ⟨0, 0⟩,
   true, false, false, [], false, false⟩

theorem scanFwdAux_spec (oldVal newVal : List Char) :
    ∀ rem start, start + rem = oldVal.length →
      (∀ i, i < start → oldVal[i]? = newVal[i]?) →
      start ≤ scanFwdAux oldVal newVal start rem ∧
      scanFwdAux oldVal newVal start rem ≤ oldVal.length ∧
      (∀ i, i < scanFwdAux oldVal newVal start rem → oldVal[i]? = newVal[i]?) := by
  intro rem
  induction rem with
  | zero =>
    intro start hlen hpre
    simp only [scanFwdAux]
    exact ⟨Nat.le_refl _, by omega, hpre⟩
  | succ n ih =>
    intro start hlen hpre
    simp only [scanFwdAux]
    by_cases h : oldVal[start]? = newVal[start]?
    · rw [if_pos h]
      have hrec := ih (start + 1) (by omega) (fun i hi => by
        rcases Nat.lt_or_ge i start with h' | h'
        · exact hpre i h'
        · have hieq : i = start := by omega
          rw [hieq]; exact h)
      exact ⟨Nat.le_of_succ_le hrec.1, hrec.2.1, hrec.2.2⟩
    · rw [if_neg h]
      exact ⟨Nat.le_refl _, by omega, hpre⟩

theorem scanBwdAux_spec (oldVal newVal : List Char) (start : Nat) :
    ∀ oldEnd newEnd, start ≤ oldEnd → oldEnd ≤ oldVal.length →
      start ≤ newEnd → newEnd ≤ newVal.length →
      oldVal.drop oldEnd = newVal.drop newEnd →
      start ≤ (scanBwdAux oldVal newVal start oldEnd newEnd).1 ∧
      (scanBwdAux oldVal newVal start oldEnd newEnd).1 ≤ oldVal.length ∧
      start ≤ (scanBwdAux oldVal newVal start oldEnd newEnd).2 ∧
      (scanBwdAux oldVal newVal start oldEnd newEnd).2 ≤ newVal.length ∧
      oldVal.drop (scanBwdAux oldVal newVal start oldEnd newEnd).1
        = newVal.drop (scanBwdAux oldVal newVal start oldEnd newEnd).2 := by
  intro oldEnd
  induction oldEnd with
  | zero =>
    intro newEnd h1 h2 h3 h4 h5
    cases newEnd <;> simp only [scanBwdAux] <;> exact ⟨h1, h2, h3, h4, h5⟩
  | succ oE ih =>
    intro newEnd h1 h2 h3 h4 h5
    cases newEnd with
    | zero =>
      simp only [scanBwdAux]
      exact ⟨h1, h2, h3, h4, h5⟩
    | succ nE =>
      simp only [scanBwdAux]
      by_cases hg : start < oE + 1 ∧ start < nE + 1 ∧ oldVal[oE]? = newVal[nE]?
      · rw [if_pos hg]
        apply ih nE (by omega) (by omega) (by omega) (by omega)
        have hoE : oE < oldVal.length := by omega
        have hnE : nE < newVal.length := by omega
        rw [List.drop_eq_getElem_cons hoE, List.drop_eq_getElem_cons hnE, h5]
        have hch := hg.2.2
        rw [List.getElem?_eq_getElem hoE, List.getElem?_eq_getElem hnE] at hch
        rw [Option.some.inj hch]
      · rw [if_neg hg]
        exact ⟨h1, h2, h3, h4, h5⟩

theorem take_eq_take_of_getElem? (a b : List Char) (n : Nat)
    (ha : n ≤ a.length) (hb : n ≤ b.length)
    (h : ∀ i, i < n → a[i]? = b[i]?) : a.take n = b.take n := by
  apply List.ext_getElem?
  intro i
  rcases Nat.lt_or_ge i n with hi | hi
  · rw [List.getElem?_take_of_lt hi, List.getElem?_take_of_lt hi]
    exact h i hi
  · rw [List.getElem?_eq_none, List.getElem?_eq_none] <;> simp only [List.length_take] <;> omega

theorem scanFwd_le_new_length (oldVal newVal : List Char) :
    scanFwdAux oldVal newVal 0 oldVal.length ≤ newVal.length := by
  have h := scanFwdAux_spec oldVal newVal oldVal.length 0 (by omega)
    (fun i hi => absurd hi (Nat.not_lt_zero i))
  rcases Nat.eq_zero_or_pos (scanFwdAux oldVal newVal 0 oldVal.length) with h0 | h0
  · omega
  · have hlt := h.2.2 (scanFwdAux oldVal newVal 0 oldVal.length - 1) (by omega)
    have hro : scanFwdAux oldVal newVal 0 oldVal.length - 1 < oldVal.length := by omega
    rw [List.getElem?_eq_getElem hro] at hlt
    have hsome : (newVal[scanFwdAux oldVal newVal 0 oldVal.length - 1]?).isSome := by
      rw [← hlt]; simp
    by_contra hc
    rw [List.getElem?_eq_none (by omega)] at hsome
    simp at hsome

theorem computeChange_some_spec (a b : List Char) (ch : Change)
    (h : computeChange a b = some ch) :
    ch.«from» ≤ ch.«to» ∧ ch.«to» ≤ a.length ∧
    a.take ch.«from» = b.take ch.«from» ∧
    ∃ nE, ch.«from» ≤ nE ∧ nE ≤ b.length ∧
      ch.text = jsSlice b ch.«from» nE ∧ a.drop ch.«to» = b.drop nE := by
  unfold computeChange at h
  by_cases hab : a = b
  · rw [if_pos hab] at h
    exact absurd h (by simp)
  · rw [if_neg hab] at h
    have hch : ch = ⟨scanFwdAux a b 0 a.length,
        (scanBwdAux a b (scanFwdAux a b 0 a.length) a.length b.length).1,
        jsSlice b (scanFwdAux a b 0 a.length)
          (scanBwdAux a b (scanFwdAux a b 0 a.length) a.length b.length).2⟩ :=
      (Option.some.inj h).symm
    have hf := scanFwdAux_spec a b a.length 0 (by omega)
      (fun i hi => absurd hi (Nat.not_lt_zero i))
    have hb0 := scanFwd_le_new_length a b
    have hbw := scanBwdAux_spec a b (scanFwdAux a b 0 a.length) a.length b.length
      hf.2.1 (Nat.le_refl _) hb0 (Nat.le_refl _)
      (by rw [List.drop_length, List.drop_length])
    rw [hch]
    refine ⟨hbw.1, hbw.2.1, ?_, ?_⟩
    · exact take_eq_take_of_getElem? a b _ hf.2.1 hb0 hf.2.2
    · exact ⟨(scanBwdAux a b (scanFwdAux a b 0 a.length) a.length b.length).2,
        hbw.2.2.1, hbw.2.2.2.1, rfl, hbw.2.2.2.2⟩

theorem computeChange_patch (a b : List Char) (ch : Change)
    (h : computeChange a b = some ch) : applyChange a ch = b := by
  obtain ⟨h1, h2, h3, nE, h4, h5, h6, h7⟩ := computeChange_some_spec a b ch h
  unfold applyChange
  rw [h3, h6, h7]
  unfold jsSlice
  have hmid : b.take ch.«from» ++ (b.drop ch.«from»).take (nE - ch.«from») = b.take nE := by
    rw [← List.take_add]
    congr 1
    omega
  conv_rhs => rw [← List.take_append_drop nE b, ← hmid]

theorem computeChange_ne_of_some (a b : List Char) (ch : Change)
    (h : computeChange a b = some ch) : a ≠ b := by
  intro hab
  unfold computeChange at h
  rw [if_pos hab] at h
  exact absurd h (by simp)

theorem computeChange_none_iff (a b : List Char) :
    computeChange a b = none ↔ a = b := by
  constructor
  · intro h
    by_contra hab
    unfold computeChange at h
    rw [if_neg hab] at h
    exact absurd h (by simp)
  · intro hab
    unfold computeChange
    rw [if_pos hab]

theorem linesOf_ne_nil (t : List Char) : linesOf t ≠ [] := by
  cases t with
  | nil => simp [linesOf]
  | cons c cs =>
    simp only [linesOf]
    by_cases h : c = '\n'
    · rw [if_pos h]; simp
    · rw [if_neg h]
      cases linesOf cs <;> simp

theorem linesOf_sum (t : List Char) :
    (((linesOf t).map (fun l => l.length + 1)).sum) = t.length + 1 := by
  induction t with
  | nil => simp [linesOf]
  | cons c cs ih =>
    simp only [linesOf]
    by_cases h : c = '\n'
    · rw [if_pos h]
      simp only [List.map_cons, List.sum_cons, List.length_cons, List.length_nil]
      omega
    · rw [if_neg h]
      rcases hl : linesOf cs with _ | ⟨l, ls⟩
      · exact absurd hl (linesOf_ne_nil cs)
      · rw [hl] at ih
        simp only [List.map_cons, List.sum_cons, List.length_cons] at ih ⊢
        omega

theorem i2pGo_shift (ls : List (List Char)) (idx row : Nat) :
    i2pGo ls idx row = ⟨row + (i2pGo ls idx 0).row, (i2pGo ls idx 0).column⟩ := by
  induction ls generalizing idx row with
  | nil => simp [i2pGo]
  | cons l ls ih =>
    cases ls with
    | nil => simp [i2pGo]
    | cons l' ls' =>
      simp only [i2pGo]
      by_cases h : idx ≤ l.length
      · rw [if_pos h, if_pos h]
        simp
      · rw [if_neg h, if_neg h]
        rw [ih (idx - (l.length + 1)) (row + 1), ih (idx - (l.length + 1)) 1]
        simp only [AcePos.mk.injEq]
        exact ⟨by omega, trivial⟩

theorem i2pGo_roundtrip (ls : List (List Char)) :
    ∀ idx, ls ≠ [] → idx + 1 ≤ (ls.map (fun l => l.length + 1)).sum →
      (i2pGo ls idx 0).row < ls.length ∧
      ((ls.take (i2pGo ls idx 0).row).map (fun l => l.length + 1)).sum
        + (i2pGo ls idx 0).column = idx := by
  induction ls with
  | nil => intro idx hne _; exact absurd rfl hne
  | cons l ls ih =>
    intro idx _ hidx
    cases ls with
    | nil =>
      simp only [i2pGo]
      simp
    | cons l' ls' =>
      simp only [i2pGo]
      by_cases h : idx ≤ l.length
      · rw [if_pos h]
        simp
      · rw [if_neg h]
        rw [i2pGo_shift (l' :: ls') (idx - (l.length + 1)) 1]
        have hrec := ih (idx - (l.length + 1)) (by simp) (by
          simp only [List.map_cons, List.sum_cons] at hidx ⊢
          omega)
        simp only [List.length_cons] at hrec ⊢
        constructor
        · dsimp only
          omega
        · dsimp only
          have h1 : 1 + (i2pGo (l' :: ls') (idx - (l.length + 1)) 0).row
              = (i2pGo (l' :: ls') (idx - (l.length + 1)) 0).row + 1 := by omega
          rw [h1, List.take_succ_cons]
          simp only [List.map_cons, List.sum_cons]
          omega

theorem positionToIndex_indexToPosition (t : List Char) (k : Nat) (hk : k ≤ t.length) :
    positionToIndex t (indexToPosition t k) = k := by
  unfold positionToIndex indexToPosition
  have hne := linesOf_ne_nil t
  have hsum := linesOf_sum t
  have h := i2pGo_roundtrip (linesOf t) k hne (by omega)
  rw [Nat.min_eq_left (Nat.le_of_lt h.1)]
  exact h.2

/-- C1: for every pair of strings `a`, `b`, `computeChange(a, b)` is `null`
iff `a = b`; a non-null change `{from, to, text}`, applied to `a` by
replacing the half-open range `[from, to)` with `text`, yields exactly `b`;
and re-running `computeChange` on the patched result against `b` yields
`null` (no spurious re-dispatch). -/
theorem c1_computeChange_null_iff_and_patch (a b : List Char) :
    (computeChange a b = none ↔ a = b) ∧
    ∀ ch, computeChange a b = some ch →
      applyChange a ch = b ∧ computeChange (applyChange a ch) b = none := by
  refine ⟨computeChange_none_iff a b, ?_⟩
  intro ch hch
  have hp := computeChange_patch a b ch hch
  exact ⟨hp, by rw [hp]; exact (computeChange_none_iff b b).mpr rfl⟩

/-- Witness for C1 at `a = "abcde"`, `b = "abXde"`,
`ch = {from: 2, to: 3, text: "X"}`. -/
theorem c1_witness :
    applyChange "abcde".toList ⟨2, 3, "X".toList⟩ = "abXde".toList ∧
    computeChange (applyChange "abcde".toList ⟨2, 3, "X".toList⟩) "abXde".toList = none :=
  (c1_computeChange_null_iff_and_patch "abcde".toList "abXde".toList).2
    ⟨2, 3, "X".toList⟩ (by decide)

/-- C9: `computeChange("abcde", "abXde") = {from: 2, to: 3, text: "X"}`;
`computeChange("abc", "xyz") = {from: 0, to: 3, text: "xyz"}`;
`computeChange("ab", "ab") = null`. -/
theorem c9_computeChange_examples :
    computeChange "abcde".toList "abXde".toList = some ⟨2, 3, "X".toList⟩ ∧
    computeChange "abc".toList "xyz".toList = some ⟨0, 3, "xyz".toList⟩ ∧
    computeChange "ab".toList "ab".toList = none :=
  ⟨by decide, by decide, by decide⟩

/-- C10: for distinct strings, the returned change is well-formed and
non-trivial: `0 ≤ from ≤ to ≤ |oldVal|`, `text = newVal.slice(from, newEnd)`
for some `from ≤ newEnd ≤ |newVal|`, and it is never the empty change. -/
theorem c10_computeChange_wellformed (oldVal newVal : List Char)
    (hne : oldVal ≠ newVal) :
    ∀ ch, computeChange oldVal newVal = some ch →
      0 ≤ ch.«from» ∧ ch.«from» ≤ ch.«to» ∧ ch.«to» ≤ oldVal.length ∧
      (∃ newEnd, ch.«from» ≤ newEnd ∧ newEnd ≤ newVal.length ∧
        ch.text = jsSlice newVal ch.«from» newEnd) ∧
      (ch.«from» < ch.«to» ∨ ch.text ≠ []) := by
  intro ch hch
  obtain ⟨h1, h2, _, nE, h4, h5, h6, _⟩ := computeChange_some_spec oldVal newVal ch hch
  refine ⟨Nat.zero_le _, h1, h2, ⟨nE, h4, h5, h6⟩, ?_⟩
  by_contra hcon
  push_neg at hcon
  obtain ⟨hle, htext⟩ := hcon
  have heq : ch.«from» = ch.«to» := by omega
  have hp := computeChange_patch oldVal newVal ch hch
  unfold applyChange at hp
  rw [htext, heq] at hp
  simp only [List.append_nil, List.nil_append] at hp
  rw [List.take_append_drop] at hp
  exact hne hp

/-- Witness for C10 at `oldVal = "abcde"`, `newVal = "abXde"`. -/
theorem c10_witness :
    0 ≤ (2 : Nat) ∧ (2 : Nat) ≤ 3 ∧ (3 : Nat) ≤ "abcde".toList.length ∧
    (∃ newEnd, (2 : Nat) ≤ newEnd ∧ newEnd ≤ "abXde".toList.length ∧
      "X".toList = jsSlice "abXde".toList 2 newEnd) ∧
    ((2 : Nat) < 3 ∨ "X".toList ≠ []) :=
  c10_computeChange_wellformed "abcde".toList "abXde".toList (by decide)
    ⟨2, 3, "X".toList⟩ (by decide)

theorem updateMode_state (localeEq : List Char → List Char → Bool)
    (opts : CodeViewOptions) (editorOptions : EditorOptions) (st : BState) :
    (CodeBlockNodeView.updateMode localeEq opts editorOptions st).1.innerText = st.innerText ∧
    (CodeBlockNodeView.updateMode localeEq opts editorOptions st).1.updating = st.updating ∧
    (CodeBlockNodeView.updateMode localeEq opts editorOptions st).1.node = st.node ∧
    (CodeBlockNodeView.updateMode localeEq opts editorOptions st).1.escaping = st.escaping := by
  unfold CodeBlockNodeView.updateMode
  rcases hl : opts.lang st.node st.innerText with _ | l
  · simp
  · by_cases hm : st.mode ≠ l <;> simp [hm]

theorem updateMode_no_replaceInner (localeEq : List Char → List Char → Bool)
    (opts : CodeViewOptions) (editorOptions : EditorOptions) (st : BState) :
    ∀ g p1 p2 tx,
      Ev.replaceInner g p1 p2 tx ∉ (CodeBlockNodeView.updateMode localeEq opts editorOptions st).2 := by
  intro g p1 p2 tx
  unfold CodeBlockNodeView.updateMode
  rcases hl : opts.lang st.node st.innerText with _ | l
  · simp
  · by_cases hm : st.mode ≠ l <;> simp [hm]

theorem sessionReplace_applyChange (t : List Char) (ch : Change)
    (h1 : ch.«from» ≤ t.length) (h2 : ch.«to» ≤ t.length) :
    sessionReplace t (indexToPosition t ch.«from») (indexToPosition t ch.«to») ch.text
      = applyChange t ch := by
  unfold sessionReplace applyChange
  rw [positionToIndex_indexToPosition t ch.«from» h1,
    positionToIndex_indexToPosition t ch.«to» h2]

/-- C2: `update(newNode)` returns `false` (touching nothing) when the node
type differs; otherwise it stores the node reference, recomputes the mode,
diffs the inner buffer against `newNode.textContent`, applies a non-null
diff to the inner buffer with the `updating` guard set, and returns
`true`. -/
theorem c2_update_spec (localeEq : List Char → List Char → Bool)
    (opts : CodeViewOptions) (editorOptions : EditorOptions)
    (st : BState) (node : PMNode) :
    (node.typeId ≠ st.node.typeId →
      CodeBlockNodeView.update localeEq opts editorOptions st node = (false, st, [])) ∧
    (node.typeId = st.node.typeId →
      (CodeBlockNodeView.update localeEq opts editorOptions st node).1 = true ∧
      (CodeBlockNodeView.update localeEq opts editorOptions st node).2.1.node = node ∧
      (CodeBlockNodeView.update localeEq opts editorOptions st node).2.1.mode =
        (CodeBlockNodeView.updateMode localeEq opts editorOptions
          { st with node := node }).1.mode ∧
      (CodeBlockNodeView.update localeEq opts editorOptions st node).2.1.innerText =
        (match computeChange st.innerText node.textContent with
         | none => st.innerText
         | some ch => applyChange st.innerText ch) ∧
      (∀ g p1 p2 tx,
        Ev.replaceInner g p1 p2 tx ∈
          (CodeBlockNodeView.update localeEq opts editorOptions st node).2.2 → g = true)) := by
  have hst := updateMode_state localeEq opts editorOptions { st with node := node }
  have hinner : (CodeBlockNodeView.updateMode localeEq opts editorOptions
      { st with node := node }).1.innerText = st.innerText := hst.1
  constructor
  · intro hty
    unfold CodeBlockNodeView.update
    rw [if_pos hty]
  · intro hty
    refine ⟨?_, ?_, ?_, ?_, ?_⟩
    · unfold CodeBlockNodeView.update
      rw [if_neg (by simp [hty])]
      rcases hcc : computeChange (CodeBlockNodeView.updateMode localeEq opts editorOptions
          { st with node := node }).1.innerText node.textContent with _ | ch <;>
        simp [hcc]
    · unfold CodeBlockNodeView.update
      rw [if_neg (by simp [hty])]
      rcases hcc : computeChange (CodeBlockNodeView.updateMode localeEq opts editorOptions
          { st with node := node }).1.innerText node.textContent with _ | ch <;>
        simp only [hcc] <;> rw [hst.2.2.1]
    · unfold CodeBlockNodeView.update
      rw [if_neg (by simp [hty])]
      rcases hcc : computeChange (CodeBlockNodeView.updateMode localeEq opts editorOptions
          { st with node := node }).1.innerText node.textContent with _ | ch <;>
        simp only [hcc]
    · unfold CodeBlockNodeView.update
      rw [if_neg (by simp [hty])]
      rcases hcc : computeChange (CodeBlockNodeView.updateMode localeEq opts editorOptions
          { st with node := node }).1.innerText node.textContent with _ | ch
      · have hcc2 : computeChange st.innerText node.textContent = none := by
          rw [← hinner]; exact hcc
        simp only [hcc, hcc2]
        exact hinner
      · have hcc2 : computeChange st.innerText node.textContent = some ch := by
          rw [← hinner]; exact hcc
        have hwf := computeChange_some_spec st.innerText node.textContent ch hcc2
        simp only [hcc, hcc2, hinner]
        exact sessionReplace_applyChange st.innerText ch (by omega) hwf.2.1
    · unfold CodeBlockNodeView.update
      rw [if_neg (by simp [hty])]
      rcases hcc : computeChange (CodeBlockNodeView.updateMode localeEq opts editorOptions
          { st with node := node }).1.innerText node.textContent with _ | ch
      · intro g p1 p2 tx hmem
        simp only [hcc] at hmem
        exact absurd hmem (updateMode_no_replaceInner localeEq opts editorOptions
          { st with node := node } g p1 p2 tx)
      · intro g p1 p2 tx hmem
        simp only [hcc, List.mem_append, List.mem_singleton] at hmem
        rcases hmem with hmem | hmem
        · exact absurd hmem (updateMode_no_replaceInner localeEq opts editorOptions
            { st with node := node } g p1 p2 tx)
        · cases hmem
          rfl

/-- Witness for C2 at a same-type node whose text changed from `"abc"` to
`"abXc"`. -/
theorem c2_witness :
    (⟨0, false, "abXc".toList, 6, 1⟩ : PMNode).typeId = bstate0.node.typeId ∧
    (CodeBlockNodeView.update locEqDef optsDef edOptsDef bstate0
      ⟨0, false, "abXc".toList, 6, 1⟩).1 = true ∧
    (CodeBlockNodeView.update locEqDef optsDef edOptsDef bstate0
      ⟨0, false, "abXc".toList, 6, 1⟩).2.1.innerText =
      (match computeChange bstate0.innerText "abXc".toList with
       | none => bstate0.innerText
       | some ch => applyChange bstate0.innerText ch) := by
  have h := (c2_update_spec locEqDef optsDef edOptsDef bstate0
    ⟨0, false, "abXc".toList, 6, 1⟩).2 rfl
  exact ⟨rfl, h.1, h.2.2.2.1⟩

/-- C3: the `updating` flag is true at the instant of the guarded patch in
`update()` and of the selection application in `setSelection()`, and both
methods return with `updating = false` (entered, as every reachable call
is, with the flag clear). -/
theorem c3_updating_flag (localeEq : List Char → List Char → Bool)
    (opts : CodeViewOptions) (editorOptions : EditorOptions)
    (st : BState) (node : PMNode) (anchor head : Nat)
    (h : st.updating = false) :
    ((CodeBlockNodeView.update localeEq opts editorOptions st node).2.1.updating = false ∧
      ∀ g p1 p2 tx, Ev.replaceInner g p1 p2 tx ∈
        (CodeBlockNodeView.update localeEq opts editorOptions st node).2.2 → g = true) ∧
    ((CodeBlockNodeView.setSelection st anchor head).1.updating = false ∧
      ∀ g p1 p2, Ev.setInnerSel g p1 p2 ∈
        (CodeBlockNodeView.setSelection st anchor head).2 → g = true) := by
  refine ⟨⟨?_, ?_⟩, ?_, ?_⟩
  · unfold CodeBlockNodeView.update
    by_cases hty : node.typeId ≠ st.node.typeId
    · rw [if_pos hty]
      exact h
    · rw [if_neg hty]
      have hst := updateMode_state localeEq opts editorOptions { st with node := node }
      rcases hcc : computeChange (CodeBlockNodeView.updateMode localeEq opts editorOptions
          { st with node := node }).1.innerText node.textContent with _ | ch
      · simp only [hcc]
        rw [hst.2.1]
        exact h
      · simp [hcc]
  · unfold CodeBlockNodeView.update
    by_cases hty : node.typeId ≠ st.node.typeId
    · rw [if_pos hty]
      intro g p1 p2 tx hmem
      exact absurd hmem (List.not_mem_nil _)
    · rw [if_neg hty]
      rcases hcc : computeChange (CodeBlockNodeView.updateMode localeEq opts editorOptions
          { st with node := node }).1.innerText node.textContent with _ | ch
      · intro g p1 p2 tx hmem
        simp only [hcc] at hmem
        exact absurd hmem (updateMode_no_replaceInner localeEq opts editorOptions
          { st with node := node } g p1 p2 tx)
      · intro g p1 p2 tx hmem
        simp only [hcc, List.mem_append, List.mem_singleton] at hmem
        rcases hmem with hmem | hmem
        · exact absurd hmem (updateMode_no_replaceInner localeEq opts editorOptions
            { st with node := node } g p1 p2 tx)
        · cases hmem
          rfl
  · unfold CodeBlockNodeView.setSelection
    by_cases hesc : st.escaping <;> simp [hesc]
  · unfold CodeBlockNodeView.setSelection
    by_cases hesc : st.escaping <;>
      · intro g p1 p2 hmem
        simp [hesc] at hmem
        exact hmem.1

/-- Witness for C3 at the concrete state `bstate0` (flag clear on entry). -/
theorem c3_witness :
    bstate0.updating = false ∧
    (CodeBlockNodeView.update locEqDef optsDef edOptsDef bstate0
      ⟨0, false, "abXc".toList, 6, 1⟩).2.1.updating = false ∧
    (CodeBlockNodeView.setSelection bstate0 1 2).1.updating = false := by
  have h := c3_updating_flag locEqDef optsDef edOptsDef bstate0
    ⟨0, false, "abXc".toList, 6, 1⟩ 1 2 rfl
  exact ⟨rfl, h.1.1, h.2.1⟩

theorem updateMode_chunkExecEnabled (localeEq : List Char → List Char → Bool)
    (opts : CodeViewOptions) (editorOptions : EditorOptions) (st : BState) :
    (CodeBlockNodeView.updateMode localeEq opts editorOptions st).1.chunkExecEnabled =
      (match opts.lang st.node st.innerText with
       | some l =>
         if l ≠ [] ∧ (editorOptions.rmdChunkExecution.isSome && opts.executeRmdChunkFn) = true then
           match (match editorOptions.rmdChunkExecution with
                  | some xs => xs
                  | none => []).find? (fun e => localeEq l e) with
           | some e => decide (e ≠ [])
           | none => false
         else false
       | none => false) := by
  unfold CodeBlockNodeView.updateMode
  rcases hl : opts.lang st.node st.innerText with _ | l
  · simp
  · by_cases hm : st.mode ≠ l <;> simp [hm]

theorem updateMode_enabled_iff (localeEq : List Char → List Char → Bool)
    (opts : CodeViewOptions) (editorOptions : EditorOptions) (st : BState)
    (hne : ∀ e ∈ (match editorOptions.rmdChunkExecution with
                  | some xs => xs
                  | none => []), e ≠ []) :
    (CodeBlockNodeView.updateMode localeEq opts editorOptions st).1.chunkExecEnabled = true ↔
      (opts.executeRmdChunkFn = true ∧
       ∃ xs, editorOptions.rmdChunkExecution = some xs ∧
       ∃ l, opts.lang st.node st.innerText = some l ∧ l ≠ [] ∧
       ∃ e ∈ xs, localeEq l e = true) := by
  rw [updateMode_chunkExecEnabled]
  rcases hl : opts.lang st.node st.innerText with _ | l
  · simp
  · rcases hx : editorOptions.rmdChunkExecution with _ | xs
    · simp
    · dsimp only
      cases hfn : opts.executeRmdChunkFn
      · simp
      · by_cases hl0 : l = []
        · subst hl0
          simp
        · have hcond : l ≠ [] ∧ (((some xs : Option (List (List Char))).isSome && true) = true) :=
            ⟨hl0, rfl⟩
          rw [if_pos hcond]
          rcases hf : xs.find? (fun e => localeEq l e) with _ | e
          · simp only [hf]
            constructor
            · intro hfalse
              simp at hfalse
            · rintro ⟨-, xs', hxs', l', hl', hl'0, e, hme, hpe⟩
              injection hxs' with hxs'
              subst hxs'
              injection hl' with hl'
              subst hl'
              exact absurd hpe (by simpa using List.find?_eq_none.mp hf e hme)
          · simp only [hf]
            have hpe := List.find?_some hf
            have hme := List.mem_of_find?_eq_some hf
            have hene : e ≠ [] := hne e (by rw [hx]; exact hme)
            constructor
            · intro _
              exact ⟨by trivial, xs, rfl, l, rfl, hl0, e, hme, hpe⟩
            · intro _
              rw [decide_eq_true_eq]
              exact hene

theorem updateMode_setMode (localeEq : List Char → List Char → Bool)
    (opts : CodeViewOptions) (editorOptions : EditorOptions) (st : BState) :
    (CodeBlockNodeView.updateMode localeEq opts editorOptions st).2.filter isSetModeEv =
      (match opts.lang st.node st.innerText with
       | some l => if st.mode ≠ l then [Ev.setMode l] else []
       | none => []) := by
  unfold CodeBlockNodeView.updateMode
  rcases hl : opts.lang st.node st.innerText with _ | l
  · simp [isSetModeEv]
  · by_cases hm : st.mode ≠ l <;> simp [hm, isSetModeEv]

/-- C7 (amended): on every mode update the session mode is set exactly once
iff the detected language is non-null and differs from the stored mode (and
it is set to that language); and — provided the configured
executable-language entries are non-empty strings — the execution
affordance is enabled iff an execution callback is configured, the
executable-language list is configured, and the detected language is
non-null, non-empty, and `localeCompare`-matches some entry. -/
theorem c7_updateMode_spec (localeEq : List Char → List Char → Bool)
    (opts : CodeViewOptions) (editorOptions : EditorOptions) (st : BState)
    (hne : ∀ e ∈ (match editorOptions.rmdChunkExecution with
                  | some xs => xs
                  | none => []), e ≠ []) :
    (((CodeBlockNodeView.updateMode localeEq opts editorOptions st).2.filter
        isSetModeEv).length = 1 ↔
      ∃ l, opts.lang st.node st.innerText = some l ∧ st.mode ≠ l) ∧
    (∀ l, opts.lang st.node st.innerText = some l → st.mode ≠ l →
      (CodeBlockNodeView.updateMode localeEq opts editorOptions st).2.filter isSetModeEv =
        [Ev.setMode l] ∧
      (CodeBlockNodeView.updateMode localeEq opts editorOptions st).1.mode = l) ∧
    ((CodeBlockNodeView.updateMode localeEq opts editorOptions st).1.chunkExecEnabled = true ↔
      (opts.executeRmdChunkFn = true ∧
       ∃ xs, editorOptions.rmdChunkExecution = some xs ∧
       ∃ l, opts.lang st.node st.innerText = some l ∧ l ≠ [] ∧
       ∃ e ∈ xs, localeEq l e = true)) := by
  refine ⟨?_, ?_, updateMode_enabled_iff localeEq opts editorOptions st hne⟩
  · rw [updateMode_setMode]
    rcases hl : opts.lang st.node st.innerText with _ | l
    · simp
    · by_cases hm : st.mode ≠ l <;> simp [hm]
  · intro l hl hm
    constructor
    · rw [updateMode_setMode, hl]
      simp [hm]
    · unfold CodeBlockNodeView.updateMode
      rw [hl]
      simp [hm]

/-- Counterexample to C7 as stated: with an execution callback configured,
the executable-language list `[""]` and detected language `""` (which
`localeCompare`-matches the entry `""`), the code still disables the
affordance — the JavaScript truthiness test `if (lang && ...)` rejects the
empty string — so "shown iff configured and matching" fails. -/
theorem c7_counterexample :
    ¬ ((CodeBlockNodeView.updateMode locEqDef optsDef ⟨some [[]]⟩
          bstateEmptyLang).1.chunkExecEnabled = true ↔
       (optsDef.executeRmdChunkFn = true ∧
        ∃ e ∈ [([] : List Char)], locEqDef [] e = true)) := by decide

/-- Witness for C7 (amended) at the `"r"` → `"python"` mode change with
`rmdChunkExecution = ["r", "python"]` and a configured callback. -/
theorem c7_witness :
    (∀ e ∈ (match edOptsDef.rmdChunkExecution with
            | some xs => xs
            | none => []), e ≠ []) ∧
    (CodeBlockNodeView.updateMode locEqDef optsDef edOptsDef bstatePy).2.filter isSetModeEv =
      [Ev.setMode "python".toList] ∧
    (CodeBlockNodeView.updateMode locEqDef optsDef edOptsDef bstatePy).1.mode =
      "python".toList ∧
    (CodeBlockNodeView.updateMode locEqDef optsDef edOptsDef
      bstatePy).1.chunkExecEnabled = true := by
  have h := c7_updateMode_spec locEqDef optsDef edOptsDef bstatePy (by decide)
  have h2 := h.2.1 "python".toList rfl (by decide)
  refine ⟨by decide, h2.1, h2.2, ?_⟩
  exact h.2.2.mpr ⟨rfl, ["r".toList, "python".toList], rfl, "python".toList, rfl, by decide,
    "python".toList, by decide, by decide⟩

/-- C4: a directional command whose movement is not at the escape boundary
(non-empty selection, or cursor row not the boundary row for the direction,
or — for `char` units — column not at the row boundary) is forwarded to the
inner editor as the underlying Ace command, with no escape and no state
change. -/
theorem c4_arrow_forwards (host : HostCtx) (st : BState) (unit : String) (dir : Int)
    (command : String) (hdir : dir = -1 ∨ dir = 1)
    (hcond : st.selEmpty = false ∨
      st.cursor.row ≠ (if dir < 0 then 0 else (linesOf st.innerText).length - 1) ∨
      (unit = "char" ∧ st.cursor.column ≠
        (if dir < 0 then 0 else ((linesOf st.innerText).getD st.cursor.row []).length))) :
    CodeBlockNodeView.arrowMaybeEscape host st unit dir command =
      (st, [Ev.execInner command]) := by
  simp only [CodeBlockNodeView.arrowMaybeEscape]
  rw [if_pos hcond]

/-- Witness for C4: cursor at row 0, column 3, line length 10, moving left
— the command is forwarded, not escaped. -/
theorem c4_witness :
    ((-1 : Int) = -1 ∨ (-1 : Int) = 1) ∧
    (bstateRow0Col3.selEmpty = false ∨
      bstateRow0Col3.cursor.row ≠
        (if (-1 : Int) < 0 then 0 else (linesOf bstateRow0Col3.innerText).length - 1) ∨
      ("char" = "char" ∧ bstateRow0Col3.cursor.column ≠
        (if (-1 : Int) < 0 then 0
         else ((linesOf bstateRow0Col3.innerText).getD bstateRow0Col3.cursor.row []).length))) ∧
    CodeBlockNodeView.arrowMaybeEscape host0 bstateRow0Col3 "char" (-1) "gotoleft" =
      (bstateRow0Col3, [Ev.execInner "gotoleft"]) := by
  refine ⟨Or.inl rfl, Or.inr (Or.inr ⟨rfl, by decide⟩), ?_⟩
  exact c4_arrow_forwards host0 bstateRow0Col3 "char" (-1) "gotoleft" (Or.inl rfl)
    (Or.inr (Or.inr ⟨rfl, by decide⟩))

/-- C6: backspace on a contentless node with no pending input rule deletes
the node range `[getPos, getPos + nodeSize)` and places the host selection
near the node's former position with backward bias; with a pending input
rule it undoes the rule instead; with content it forwards the backspace to
the inner editor. -/
theorem c6_backspace_spec (host : HostCtx) (undoPending : Bool) (st : BState) :
    (st.node.childCount = 0 → undoPending = false →
      CodeBlockNodeView.backspaceMaybeDeleteNode host undoPending st =
        ({ st with hostFocused := true },
         [Ev.hostDeleteAndSelNear host.getPos (host.getPos + st.node.nodeSize)
            host.getPos (-1),
          Ev.focusHost])) ∧
    (st.node.childCount = 0 → undoPending = true →
      CodeBlockNodeView.backspaceMaybeDeleteNode host undoPending st =
        ({ st with hostFocused := true }, [Ev.undoInputRuleEv, Ev.focusHost])) ∧
    (st.node.childCount ≠ 0 →
      CodeBlockNodeView.backspaceMaybeDeleteNode host undoPending st =
        (st, [Ev.execInner "backspace"])) := by
  refine ⟨?_, ?_, ?_⟩ <;> intro h1 <;> try intro h2
  · unfold CodeBlockNodeView.backspaceMaybeDeleteNode
    rw [if_pos h1, h2]
    rfl
  · unfold CodeBlockNodeView.backspaceMaybeDeleteNode
    rw [if_pos h1, h2]
    rfl
  · unfold CodeBlockNodeView.backspaceMaybeDeleteNode
    rw [if_neg h1]

/-- Witness for C6: an empty node at position 5 with `nodeSize = 2` is
deleted over `[5, 7)` and the selection placed near 5 with backward bias. -/
theorem c6_witness :
    bstateEmptyLang.node.childCount = 0 ∧
    CodeBlockNodeView.backspaceMaybeDeleteNode host0 false bstateEmptyLang =
      (⟨⟨0, false, [], 2, 0⟩, [], (⟨0, 0⟩, ⟨0, 0⟩), ⟨0, 0⟩, true, false, false,
        "x".toList, false, true⟩,
       [Ev.hostDeleteAndSelNear 5 7 5 (-1), Ev.focusHost]) :=
  ⟨rfl, (c6_backspace_spec host0 false bstateEmptyLang).1 rfl rfl⟩

/-- C5 (amended): when an escape is eligible, a selectable preceding node
(for `dir < 0`) or following node (for `dir ≥ 0`) receives a node-level
selection at its position; otherwise a direction-biased near selection at
the position adjacent to the node is dispatched when a node exists there;
and when none exists nothing is dispatched — but the escape still focuses
the host view (the trace is exactly the two `focus()` calls), leaving the
host selection unchanged. -/
theorem c5_arrow_escape_targets (host : HostCtx) (st : BState) (unit : String)
    (dir : Int) (command : String) (hdir : dir = -1 ∨ dir = 1)
    (hsel : st.selEmpty = true)
    (hrow : st.cursor.row = (if dir < 0 then 0 else (linesOf st.innerText).length - 1))
    (hcol : unit = "char" → st.cursor.column =
      (if dir < 0 then 0 else ((linesOf st.innerText).getD st.cursor.row []).length)) :
    ((CodeBlockNodeView.arrowMaybeEscape host st unit dir command).1.escaping = false ∧
     (CodeBlockNodeView.arrowMaybeEscape host st unit dir command).1.hostFocused = true) ∧
    (dir < 0 → ∀ nb, host.nodeBefore = some nb → nb.selectable = true →
      (CodeBlockNodeView.arrowMaybeEscape host st unit dir command).2 =
        [Ev.focusHost, Ev.dispatchNodeSel (host.getPos - nb.nodeSize), Ev.focusHost]) ∧
    (dir ≥ 0 → ∀ nn, host.nodeAt (host.getPos + st.node.nodeSize) = some nn →
      nn.selectable = true →
      (CodeBlockNodeView.arrowMaybeEscape host st unit dir command).2 =
        [Ev.focusHost, Ev.dispatchNodeSel (host.getPos + st.node.nodeSize), Ev.focusHost]) ∧
    ((if dir < 0 then prevSelectableB host else nextSelectableB host st) = false →
      ∀ tn, host.nodeAt (host.getPos + (if dir < 0 then 0 else st.node.nodeSize)) = some tn →
      (CodeBlockNodeView.arrowMaybeEscape host st unit dir command).2 =
        [Ev.focusHost,
         Ev.dispatchNearSel (host.getPos + (if dir < 0 then 0 else st.node.nodeSize)) dir,
         Ev.focusHost]) ∧
    ((if dir < 0 then prevSelectableB host else nextSelectableB host st) = false →
      host.nodeAt (host.getPos + (if dir < 0 then 0 else st.node.nodeSize)) = none →
      (CodeBlockNodeView.arrowMaybeEscape host st unit dir command).2 =
        [Ev.focusHost, Ev.focusHost]) := by
  have hcondF : ¬ (st.selEmpty = false ∨
      st.cursor.row ≠ (if dir < 0 then 0 else (linesOf st.innerText).length - 1) ∨
      (unit = "char" ∧ st.cursor.column ≠
        (if dir < 0 then 0 else ((linesOf st.innerText).getD st.cursor.row []).length))) := by
    rintro (h | h | ⟨hu, h⟩)
    · rw [hsel] at h
      cases h
    · exact h hrow
    · exact h (hcol hu)
  rcases hdir with rfl | rfl
  · refine ⟨?_, ?_, ?_, ?_, ?_⟩
    · simp only [CodeBlockNodeView.arrowMaybeEscape]
      rw [if_neg hcondF]
      exact ⟨rfl, rfl⟩
    · intro _ nb hnb hsl
      simp only [CodeBlockNodeView.arrowMaybeEscape]
      rw [if_neg hcondF]
      simp [hnb, hsl]
    · intro hge
      exact absurd hge (by norm_num)
    · intro hps tn htn
      rw [if_pos (by norm_num : (-1 : Int) < 0)] at hps
      unfold prevSelectableB at hps
      simp only [show ((-1 : Int) < 0) = True from by simp, if_true, Nat.add_zero] at htn
      simp only [CodeBlockNodeView.arrowMaybeEscape]
      rw [if_neg hcondF]
      simp [hps, htn]
    · intro hps htn
      rw [if_pos (by norm_num : (-1 : Int) < 0)] at hps
      unfold prevSelectableB at hps
      simp only [show ((-1 : Int) < 0) = True from by simp, if_true, Nat.add_zero] at htn
      simp only [CodeBlockNodeView.arrowMaybeEscape]
      rw [if_neg hcondF]
      simp [hps, htn]
  · refine ⟨?_, ?_, ?_, ?_, ?_⟩
    · simp only [CodeBlockNodeView.arrowMaybeEscape]
      rw [if_neg hcondF]
      exact ⟨rfl, rfl⟩
    · intro hlt
      exact absurd hlt (by norm_num)
    · intro _ nn hnn hsl
      simp only [CodeBlockNodeView.arrowMaybeEscape]
      rw [if_neg hcondF]
      simp [hnn, hsl]
    · intro hns tn htn
      rw [if_neg (by norm_num : ¬ ((1 : Int) < 0))] at hns
      unfold nextSelectableB at hns
      simp only [show ((1 : Int) < 0) = False from by simp, if_false] at htn
      rw [htn] at hns
      have hns2 : tn.selectable = false := hns
      simp only [CodeBlockNodeView.arrowMaybeEscape]
      rw [if_neg hcondF]
      simp [hns2, htn, show ((1 : Int) < 0) = False from by simp]
    · intro hns htn
      rw [if_neg (by norm_num : ¬ ((1 : Int) < 0))] at hns
      unfold nextSelectableB at hns
      simp only [show ((1 : Int) < 0) = False from by simp, if_false] at htn
      simp only [CodeBlockNodeView.arrowMaybeEscape]
      rw [if_neg hcondF]
      simp [hns, htn, show ((1 : Int) < 0) = False from by simp]

/-- Counterexample to C5 as stated: with no selectable neighbour and no
node at the computed target, nothing is dispatched (the trace is the two
`focus()` calls only) — but focus is NOT left unchanged: `view.focus()`
transfers focus to the host view, so the resulting state differs from the
initial one. -/
theorem c5_counterexample :
    (CodeBlockNodeView.arrowMaybeEscape host0 bstateEmptyLang "char" (-1) "gotoleft").2 =
      [Ev.focusHost, Ev.focusHost] ∧
    (CodeBlockNodeView.arrowMaybeEscape host0 bstateEmptyLang "char" (-1)
        "gotoleft").1.hostFocused ≠ bstateEmptyLang.hostFocused := by decide

/-- Witness for C5 (amended): cursor at row 0, column 0, empty selection,
`dir = -1`, `unit = 'char'`, selectable preceding node of size 3 — a
node-level selection at position 2 (= 5 − 3) is dispatched. -/
theorem c5_witness :
    bstateEmptyLang.selEmpty = true ∧
    (CodeBlockNodeView.arrowMaybeEscape hostPrev bstateEmptyLang "char" (-1) "gotoleft").2 =
      [Ev.focusHost, Ev.dispatchNodeSel 2, Ev.focusHost] := by
  have h := c5_arrow_escape_targets hostPrev bstateEmptyLang "char" (-1) "gotoleft"
    (Or.inl rfl) rfl (by decide) (fun _ => by decide)
  exact ⟨rfl, h.2.1 (by norm_num) ⟨1, true, [], 3, 0⟩ rfl rfl⟩

/-- C8: the binding addresses host content at `getPos() + 1 + localOffset`:
the inner→host selection mapping adds `getPos() + 1` to each inner offset,
and an inner change `{from, to, text}` is pushed to the host as a
replacement of `[getPos()+1+from, getPos()+1+to)`. -/
theorem c8_host_offsets (localeEq : List Char → List Char → Bool)
    (opts : CodeViewOptions) (editorOptions : EditorOptions)
    (host : HostCtx) (st : BState) (k1 k2 : Nat)
    (h1 : k1 ≤ st.innerText.length) (h2 : k2 ≤ st.innerText.length)
    (hsel : st.selRange = (indexToPosition st.innerText k1, indexToPosition st.innerText k2)) :
    CodeBlockNodeView.asProseMirrorSelection host st =
      (host.getPos + 1 + k1, host.getPos + 1 + k2) ∧
    (∀ ch, computeChange st.node.textContent st.innerText = some ch →
      Ev.hostReplace (host.getPos + 1 + ch.«from») (host.getPos + 1 + ch.«to») ch.text ∈
        (CodeBlockNodeView.valueChanged localeEq opts editorOptions host st).2) := by
  constructor
  · unfold CodeBlockNodeView.asProseMirrorSelection
    rw [hsel]
    dsimp only
    rw [positionToIndex_indexToPosition st.innerText k1 h1,
      positionToIndex_indexToPosition st.innerText k2 h2]
    have e1 : k1 + (host.getPos + 1) = host.getPos + 1 + k1 := by omega
    have e2 : k2 + (host.getPos + 1) = host.getPos + 1 + k2 := by omega
    rw [e1, e2]
  · intro ch hch
    unfold CodeBlockNodeView.valueChanged
    simp only [hch]
    simp

/-- Witness for C8: node at position 5; inner offsets 1 and 2 map to host
offsets 7 and 8, and the diff `{from: 2, to: 2, text: "X"}` is pushed to
the host as a replacement of `[8, 8)`. -/
theorem c8_witness :
    (1 : Nat) ≤ bstateC8.innerText.length ∧ (2 : Nat) ≤ bstateC8.innerText.length ∧
    CodeBlockNodeView.asProseMirrorSelection host0 bstateC8 = (7, 8) ∧
    Ev.hostReplace 8 8 "X".toList ∈
      (CodeBlockNodeView.valueChanged locEqDef optsDef edOptsDef host0 bstateC8).2 := by
  have h := c8_host_offsets locEqDef optsDef edOptsDef host0 bstateC8 1 2
    (by decide) (by decide) rfl
  exact ⟨by decide, by decide, h.1, h.2 ⟨2, 2, "X".toList⟩ (by decide)⟩
